import Mathlib

/-!
Verification development for the yttria-math spectral transform layer and
FIR filter designer (`src/vector/fft.rs`, `src/vector/arithmetic.rs`,
`src/vector/complex.rs`, `src/windows/cosine_sum.rs`, `src/utils.rs`).

Buffers are modelled as Lean lists; `f64` arithmetic is modelled exactly over
`ℝ` (and `Complex<f64>` over `ℂ`).  Rust panics (failed `assert!`, index
out of range, `usize` subtraction overflow, `.expect` on a failed numeric
conversion) are modelled as `none` of an `Option` result.
-/

open scoped Classical

namespace Yttria

/-- Modelled from the spec: the external transform engine (rustfft) computes
the plain unnormalized forward DFT, `X[k] = Σ_n x[n]·exp(-2πi·k·n/N)`.
The repository's own layer owns only the copying, scaling and symmetry
reconstruction around this call. -/
noncomputable def unnormalizedDft (x : List ℂ) : List ℂ :=
  (List.range x.length).map fun (k : ℕ) =>
    ∑ n ∈ Finset.range x.length,
      x.getD n 0 * Complex.exp (-(2 * Real.pi * Complex.I * (k * n)) / x.length)

/-- Modelled from the spec: the external transform engine's unnormalized
inverse DFT, `x[k] = Σ_n X[n]·exp(2πi·k·n/N)` (no internal 1/N scale,
as documented by rustfft). -/
noncomputable def unnormalizedIdft (x : List ℂ) : List ℂ :=
  (List.range x.length).map fun (k : ℕ) =>
    ∑ n ∈ Finset.range x.length,
      x.getD n 0 * Complex.exp (2 * Real.pi * Complex.I * (k * n) / x.length)

/-- Modelled from the spec: rustfft's `process_with_scratch` treats the given
buffer as consecutive chunks of the planned FFT length and transforms each
chunk in place; a zero planned length is a no-op. -/
noncomputable def processChunks (f : List ℂ → List ℂ) (n : ℕ) : List ℂ → List ℂ
  | [] => []
  | a :: l =>
    if _hn : n = 0 then a :: l
    else f ((a :: l).take n) ++ processChunks f n ((a :: l).drop n)
termination_by l => l.length
decreasing_by
  simp only [List.length_drop, List.length_cons]
  omega

/-- Models `num::FromPrimitive::from_usize` at `T = f64`: the conversion the
source calls `.expect(...)` on.  For `f64` it succeeds for every `usize`
(so the modelled panic can never fire on this path). -/
noncomputable def f64FromUsize (n : ℕ) : Option ℝ := some (n : ℝ)

/-- Function `fft` from `src/vector/fft.rs`: copy the input into the output buffer,
run the engine's forward transform planned at the input length, then divide
every element by the input length (converted to the element type). -/
noncomputable def fft (x : List ℂ) : Option (List ℂ) :=
  match f64FromUsize x.length with
  | none => none
  | some c => some ((processChunks unnormalizedDft x.length x).map (· / (c : ℂ)))

/-- Function `ifft` from `src/vector/fft.rs`: the engine's unnormalized inverse
transform followed by the same division by the input length. -/
noncomputable def ifft (x : List ℂ) : Option (List ℂ) :=
  match f64FromUsize x.length with
  | none => none
  | some c => some ((processChunks unnormalizedIdft x.length x).map (· / (c : ℂ)))

section DftLemmas

lemma length_unnormalizedDft (x : List ℂ) : (unnormalizedDft x).length = x.length := by
  simp only [unnormalizedDft, List.length_map, List.length_range]

lemma length_unnormalizedIdft (x : List ℂ) : (unnormalizedIdft x).length = x.length := by
  simp only [unnormalizedIdft, List.length_map, List.length_range]

lemma unnormalizedDft_nil : unnormalizedDft [] = [] := by
  simp [unnormalizedDft]

lemma unnormalizedIdft_nil : unnormalizedIdft [] = [] := by
  simp [unnormalizedIdft]

lemma processChunks_nil (f : List ℂ → List ℂ) (n : ℕ) : processChunks f n [] = [] := by
  simp [processChunks]

lemma processChunks_single (f : List ℂ → List ℂ) (x : List ℂ) (hx : x ≠ []) :
    processChunks f x.length x = f x := by
  cases x with
  | nil => exact absurd rfl hx
  | cons a l =>
    rw [processChunks]
    have hne : (a :: l).length ≠ 0 := by simp
    rw [dif_neg hne]
    simp [processChunks_nil]

lemma getD_unnormalizedDft (x : List ℂ) (k : ℕ) (hk : k < x.length) :
    (unnormalizedDft x).getD k 0 =
      ∑ n ∈ Finset.range x.length,
        x.getD n 0 * Complex.exp (-(2 * Real.pi * Complex.I * (k * n)) / x.length) := by
  rw [List.getD_eq_getElem _ _ (by simpa [length_unnormalizedDft] using hk)]
  simp only [unnormalizedDft, List.getElem_map, List.getElem_range]

lemma getD_unnormalizedIdft (x : List ℂ) (k : ℕ) (hk : k < x.length) :
    (unnormalizedIdft x).getD k 0 =
      ∑ n ∈ Finset.range x.length,
        x.getD n 0 * Complex.exp (2 * Real.pi * Complex.I * (k * n) / x.length) := by
  rw [List.getD_eq_getElem _ _ (by simpa [length_unnormalizedIdft] using hk)]
  simp only [unnormalizedIdft, List.getElem_map, List.getElem_range]

lemma two_pi_I_ne_zero : (2 * Real.pi * Complex.I : ℂ) ≠ 0 := by
  have hpi : (Real.pi : ℂ) ≠ 0 := by
    exact_mod_cast Complex.ofReal_ne_zero.mpr Real.pi_ne_zero
  exact mul_ne_zero (mul_ne_zero two_ne_zero hpi) Complex.I_ne_zero

/-- Root-of-unity orthogonality: the inner sum arising when a forward
transform is applied to an inverse transform. -/
lemma dft_orthogonality (N k n : ℕ) (hN : 0 < N) (hk : k < N) (hn : n < N) :
    ∑ m ∈ Finset.range N,
        Complex.exp (2 * Real.pi * Complex.I * (m * n) / N) *
          Complex.exp (-(2 * Real.pi * Complex.I * (k * m)) / N) =
      if n = k then (N : ℂ) else 0 := by
  have hNc : (N : ℂ) ≠ 0 := Nat.cast_ne_zero.mpr hN.ne'
  have hterm : ∀ m : ℕ,
      Complex.exp (2 * Real.pi * Complex.I * (m * n) / N) *
          Complex.exp (-(2 * Real.pi * Complex.I * (k * m)) / N) =
        Complex.exp (((n : ℂ) - k) * (2 * Real.pi * Complex.I) / N) ^ m := by
    intro m
    rw [← Complex.exp_nat_mul, ← Complex.exp_add]
    congr 1
    field_simp
    ring
  simp only [hterm]
  by_cases hnk : n = k
  · subst hnk
    simp
  · have he1 : Complex.exp (((n : ℂ) - k) * (2 * Real.pi * Complex.I) / N) ≠ 1 := by
      intro h
      obtain ⟨j, hj⟩ := Complex.exp_eq_one_iff.mp h
      have hj2 : ((n : ℂ) - k) * (2 * Real.pi * Complex.I) = j * (2 * Real.pi * Complex.I) * N := by
        field_simp at hj
        linear_combination hj
      have hj3 : ((n : ℂ) - k) = (j : ℂ) * N := by
        have := mul_right_cancel₀ two_pi_I_ne_zero
          (by linear_combination hj2 :
            ((n : ℂ) - k) * (2 * Real.pi * Complex.I) = ((j : ℂ) * N) * (2 * Real.pi * Complex.I))
        exact this
      have hj4 : (n : ℤ) - k = j * N := by exact_mod_cast hj3
      have hne : (n : ℤ) - k ≠ 0 := by
        intro h0
        exact hnk (by omega)
      have hj0 : j ≠ 0 := by
        intro h0
        rw [h0, zero_mul] at hj4
        exact hne hj4
      have habs : |(n : ℤ) - k| < N := by
        rw [abs_lt]
        constructor <;> omega
      have habs2 : (N : ℤ) ≤ |(n : ℤ) - k| := by
        rw [hj4, abs_mul, abs_of_nonneg (by positivity : (0 : ℤ) ≤ (N : ℤ))]
        have h1j : (1 : ℤ) ≤ |j| := Int.one_le_abs hj0
        nlinarith [abs_nonneg j]
      omega
    have heN : Complex.exp (((n : ℂ) - k) * (2 * Real.pi * Complex.I) / N) ^ N = 1 := by
      rw [← Complex.exp_nat_mul]
      have harg : (N : ℂ) * (((n : ℂ) - k) * (2 * Real.pi * Complex.I) / N) =
          (((n : ℤ) - k : ℤ) : ℂ) * (2 * Real.pi * Complex.I) := by
        push_cast
        field_simp
      rw [harg, Complex.exp_int_mul_two_pi_mul_I]
    rw [geom_sum_eq he1, heN, if_neg hnk]
    simp

/-- The repository's forward transform applied to the repository's inverse
transform: each stage divides by `N` and the unnormalized transform pair
itself contributes a factor of `N`, so the composite scales by `1/N`. -/
lemma dft_inversion (x : List ℂ) (hx : x ≠ []) :
    unnormalizedDft ((unnormalizedIdft x).map (· / (x.length : ℂ))) = x := by
  set N := x.length with hN
  have hNpos : 0 < N := List.length_pos.mpr hx
  have hNc : (N : ℂ) ≠ 0 := Nat.cast_ne_zero.mpr hNpos.ne'
  set y := (unnormalizedIdft x).map (· / (N : ℂ)) with hy
  have hylen : y.length = N := by simp [hy, length_unnormalizedIdft]
  have hlen : (unnormalizedDft y).length = x.length := by
    simp [length_unnormalizedDft, hylen]
  apply List.ext_getElem hlen
  intro k hk1 hk2
  have hkN : k < N := hk2
  have hyget : ∀ m : ℕ, m < N → y.getD m 0 =
      (∑ n ∈ Finset.range N,
        x.getD n 0 * Complex.exp (2 * Real.pi * Complex.I * (m * n) / N)) / N := by
    intro m hm
    have hm' : m < (unnormalizedIdft x).length := by
      simpa [length_unnormalizedIdft] using hm
    rw [hy, List.getD_eq_getElem _ _ (by simpa using hm'), List.getElem_map]
    rw [← List.getD_eq_getElem (unnormalizedIdft x) 0 hm']
    rw [getD_unnormalizedIdft x m hm]
  rw [← List.getD_eq_getElem (unnormalizedDft y) 0 hk1, ← List.getD_eq_getElem x 0 hk2]
  rw [getD_unnormalizedDft y k (by simpa [hylen] using hkN)]
  rw [show y.length = N from hylen]
  have hterms : ∀ m ∈ Finset.range N,
      y.getD m 0 * Complex.exp (-(2 * Real.pi * Complex.I * (k * m)) / N) =
        (∑ n ∈ Finset.range N,
          x.getD n 0 *
            (Complex.exp (2 * Real.pi * Complex.I * (m * n) / N) *
              Complex.exp (-(2 * Real.pi * Complex.I * (k * m)) / N))) / N := by
    intro m hm
    rw [hyget m (Finset.mem_range.mp hm)]
    rw [div_mul_eq_mul_div, Finset.sum_mul]
    congr 1
    refine Finset.sum_congr rfl fun n _ => ?_
    ring
  rw [Finset.sum_congr rfl hterms, ← Finset.sum_div]
  rw [Finset.sum_comm]
  have hinner : ∀ n ∈ Finset.range N,
      (∑ m ∈ Finset.range N,
        x.getD n 0 *
          (Complex.exp (2 * Real.pi * Complex.I * (m * n) / N) *
            Complex.exp (-(2 * Real.pi * Complex.I * (k * m)) / N))) =
        x.getD n 0 * (if n = k then (N : ℂ) else 0) := by
    intro n hn
    rw [← Finset.mul_sum]
    congr 1
    exact dft_orthogonality N k n hNpos hkN (Finset.mem_range.mp hn)
  rw [Finset.sum_congr rfl hinner]
  have hsum : (∑ n ∈ Finset.range N, x.getD n 0 * (if n = k then (N : ℂ) else 0)) =
      x.getD k 0 * N := by
    rw [Finset.sum_congr rfl (fun n _ => by rw [mul_ite, mul_zero])]
    rw [Finset.sum_ite_eq' (Finset.range N) k (fun n => x.getD n 0 * N)]
    rw [if_pos (Finset.mem_range.mpr hkN)]
  rw [hsum, mul_div_assoc, div_self hNc, mul_one]

lemma fft_nil : fft [] = some [] := by
  simp [fft, f64FromUsize, processChunks_nil]

lemma ifft_nil : ifft [] = some [] := by
  simp [ifft, f64FromUsize, processChunks_nil]

lemma fft_eq (x : List ℂ) (hx : x ≠ []) :
    fft x = some ((unnormalizedDft x).map (· / (x.length : ℂ))) := by
  simp only [fft, f64FromUsize]
  rw [processChunks_single _ _ hx]
  norm_num

lemma ifft_eq (x : List ℂ) (hx : x ≠ []) :
    ifft x = some ((unnormalizedIdft x).map (· / (x.length : ℂ))) := by
  simp only [ifft, f64FromUsize]
  rw [processChunks_single _ _ hx]
  norm_num

/-- Composite behaviour of the two repository transforms (with their
double 1/N scaling): forward after inverse yields `x / N`. -/
lemma fft_ifft_eq (x : List ℂ) :
    (ifft x).bind fft = some (x.map (· / (x.length : ℂ))) := by
  by_cases hx : x = []
  · subst hx
    simp [ifft_nil, fft_nil]
  · have hN : x.length ≠ 0 := by simpa using hx
    have hylen : ((unnormalizedIdft x).map (· / (x.length : ℂ))).length = x.length := by
      simp [length_unnormalizedIdft]
    have hyne : (unnormalizedIdft x).map (· / (x.length : ℂ)) ≠ [] := by
      intro h
      apply hN
      rw [← hylen, h]
      rfl
    rw [ifft_eq x hx, Option.some_bind, fft_eq _ hyne, dft_inversion x hx, hylen]

end DftLemmas

/-- The Hermitian working buffer built by `irfft_into`.  The source allocates
`2*M - 1` uninitialized slots (`junk` models the uninitialized tail of length
`M - 1`), writes `half` into the first `M`, conjugates and reverses the whole
buffer in place, then writes `half` into the first `M` slots again. -/
noncomputable def workBuf (junk half : List ℂ) : List ℂ :=
  half ++ (((half ++ junk).map (starRingEnd ℂ)).reverse.drop half.length)

/-- Models `Vec::resize(n, 0)`: truncate to `n` elements or extend with zeros. -/
noncomputable def resizeTo (l : List ℂ) (n : ℕ) : List ℂ :=
  l.take n ++ List.replicate (n - l.length) 0

/-- The raw result of `irfft_into` on a non-empty half-spectrum: resize the
working buffer to `out_len * 2`, run the engine's inverse transform planned
at `out_len` over it (two chunks), divide everything by `out_len` (converted
to the element type), and keep the real parts of the first `out_len` slots. -/
noncomputable def irfftRaw (junk half : List ℂ) : List ℝ :=
  (((processChunks unnormalizedIdft (2 * (half.length - 1))
        (resizeTo (workBuf junk half) (2 * (half.length - 1) * 2))).map
      (· / (((2 * (half.length - 1) : ℕ) : ℝ) : ℂ))).take
    (2 * (half.length - 1))).map Complex.re

/-- Function `irfft_into` with the uninitialized working-buffer tail made explicit.  A
length-0 input panics at `2 * (self.len() - 1)` (usize subtraction overflow),
modelled as `none`. -/
noncomputable def irfftWith (junk half : List ℂ) : Option (List ℝ) :=
  if half.length = 0 then none
  else
    match f64FromUsize (2 * (half.length - 1)) with
    | none => none
    | some _ => some (irfftRaw junk half)

/-- Function `irfft` from `src/vector/fft.rs` (the uninitialized tail is arbitrary in
the source; `irfftWith` is shown junk-independent below). -/
noncomputable def irfft (half : List ℂ) : Option (List ℝ) :=
  irfftWith (List.replicate (half.length - 1) 0) half

/-- The full spectrum described by the spec: the half-spectrum itself on
`[0, M)` followed by the conjugate mirror `S[k] = conj(half[2M-2-k])` for
`M ≤ k < 2M-2`. -/
noncomputable def fullSpectrum (half : List ℂ) : List ℂ :=
  half ++ (List.range (half.length - 2)).map fun (j : ℕ) =>
    (starRingEnd ℂ) (half.getD (half.length - 2 - j) 0)

section IrfftLemmas

lemma length_fullSpectrum (half : List ℂ) :
    (fullSpectrum half).length = half.length + (half.length - 2) := by
  simp [fullSpectrum]

lemma length_resizeTo (l : List ℂ) (n : ℕ) : (resizeTo l n).length = n := by
  simp only [resizeTo, List.length_append, List.length_take, List.length_replicate]
  omega

lemma length_workBuf (junk half : List ℂ) (hj : junk.length = half.length - 1)
    (h1 : 1 ≤ half.length) :
    (workBuf junk half).length = 2 * half.length - 1 := by
  simp only [workBuf, List.length_append, List.length_drop, List.length_reverse,
    List.length_map, hj]
  omega

lemma workBuf_take (junk half : List ℂ) :
    (workBuf junk half).take half.length = half := by
  simp only [workBuf]
  exact List.take_left half _

lemma workBuf_getElem_lt (junk half : List ℂ) (i : ℕ) (hi : i < half.length)
    (hw : i < (workBuf junk half).length) :
    (workBuf junk half)[i] = half[i] := by
  simp only [workBuf]
  rw [List.getElem_append_left hi]

lemma workBuf_getElem_ge (junk half : List ℂ) (hj : junk.length = half.length - 1)
    (h1 : 1 ≤ half.length) (i : ℕ) (hiM : half.length ≤ i)
    (hi : i < 2 * half.length - 1) (hw : i < (workBuf junk half).length)
    (hh : 2 * half.length - 2 - i < half.length) :
    (workBuf junk half)[i] = (starRingEnd ℂ) half[2 * half.length - 2 - i] := by
  have hlen1 : ((half ++ junk).map (starRingEnd ℂ)).length = 2 * half.length - 1 := by
    simp [hj]
    omega
  have hlen2 : (((half ++ junk).map (starRingEnd ℂ)).reverse).length = 2 * half.length - 1 := by
    rw [List.length_reverse]
    exact hlen1
  simp only [workBuf]
  rw [List.getElem_append_right hiM]
  rw [List.getElem_drop]
  have hidx : half.length + (i - half.length) = i := by omega
  simp only [hidx]
  rw [List.getElem_reverse]
  have hidx2 : ((half ++ junk).map (starRingEnd ℂ)).length - 1 - i = 2 * half.length - 2 - i := by
    omega
  simp only [hidx2]
  rw [List.getElem_map]
  rw [List.getElem_append_left hh]

lemma workBuf_take_outLen (junk half : List ℂ) (hj : junk.length = half.length - 1)
    (hM : 2 ≤ half.length) :
    (workBuf junk half).take (2 * (half.length - 1)) = fullSpectrum half := by
  have hwlen : (workBuf junk half).length = 2 * half.length - 1 :=
    length_workBuf junk half hj (by omega)
  apply List.ext_getElem
  · rw [List.length_take, hwlen, length_fullSpectrum]
    omega
  · intro i hi1 hi2
    rw [List.getElem_take]
    have hfs : i < (fullSpectrum half).length := hi2
    rw [length_fullSpectrum] at hfs
    have hiw : i < (workBuf junk half).length := by
      rw [hwlen]; omega
    by_cases hcase : i < half.length
    · rw [workBuf_getElem_lt junk half i hcase hiw]
      simp only [fullSpectrum]
      rw [List.getElem_append_left hcase]
    · have hge : half.length ≤ i := by omega
      rw [workBuf_getElem_ge junk half hj (by omega) i hge (by omega) hiw (by omega)]
      simp only [fullSpectrum]
      rw [List.getElem_append_right hge]
      rw [List.getElem_map, List.getElem_range]
      have hidx : half.length - 2 - (i - half.length) = 2 * half.length - 2 - i := by omega
      rw [hidx]
      congr 1
      exact (List.getD_eq_getElem half 0 (by omega)).symm

lemma processChunks_exact (f : List ℂ → List ℂ) (n : ℕ) (hn : 0 < n) (buf : List ℂ)
    (hlen : buf.length = n) :
    processChunks f n buf = f buf := by
  cases buf with
  | nil => simp at hlen; omega
  | cons a l =>
    rw [processChunks, dif_neg hn.ne']
    rw [← hlen, List.take_length, List.drop_length, processChunks_nil, List.append_nil]

lemma processChunks_two (f : List ℂ → List ℂ) (n : ℕ) (hn : 0 < n) (buf : List ℂ)
    (hlen : buf.length = n * 2) :
    processChunks f n buf = f (buf.take n) ++ f (buf.drop n) := by
  cases buf with
  | nil => simp at hlen; omega
  | cons a l =>
    rw [processChunks, dif_neg hn.ne']
    congr 1
    apply processChunks_exact f n hn
    simp only [List.length_drop]
    simp only [List.length_cons] at hlen ⊢
    omega

/-- Core irfft computation: for a half-spectrum of length `M ≥ 2` (with any
uninitialized tail of the correct length) the output is the real part of the
scaled inverse transform of the reconstructed full spectrum. -/
lemma irfftRaw_eq (junk half : List ℂ) (hM : 2 ≤ half.length)
    (hj : junk.length = half.length - 1) :
    irfftRaw junk half =
      ((unnormalizedIdft (fullSpectrum half)).map
        (· / (((2 * (half.length - 1) : ℕ) : ℝ) : ℂ))).map Complex.re := by
  have hwlen : (workBuf junk half).length = 2 * half.length - 1 :=
    length_workBuf junk half hj (by omega)
  have houtpos : 0 < 2 * (half.length - 1) := by omega
  have hbig : resizeTo (workBuf junk half) (2 * (half.length - 1) * 2) =
      workBuf junk half ++
        List.replicate (2 * (half.length - 1) * 2 - (2 * half.length - 1)) 0 := by
    simp only [resizeTo, hwlen]
    congr 1
    exact List.take_of_length_le (by omega)
  have hbiglen : (resizeTo (workBuf junk half) (2 * (half.length - 1) * 2)).length =
      2 * (half.length - 1) * 2 := length_resizeTo _ _
  rw [irfftRaw, hbig]
  rw [processChunks_two unnormalizedIdft (2 * (half.length - 1)) houtpos _
    (by rw [← hbig, hbiglen])]
  have htake : (workBuf junk half ++
      List.replicate (2 * (half.length - 1) * 2 - (2 * half.length - 1)) 0).take
        (2 * (half.length - 1)) = fullSpectrum half := by
    rw [List.take_append_of_le_length (by omega), workBuf_take_outLen junk half hj hM]
  rw [htake]
  rw [List.map_append]
  rw [List.take_left']
  rw [List.length_map, length_unnormalizedIdft, length_fullSpectrum]
  omega

lemma irfftWith_eq (junk half : List ℂ) (hne : half.length ≠ 0) :
    irfftWith junk half = some (irfftRaw junk half) := by
  simp [irfftWith, hne, f64FromUsize]

lemma irfftWith_nil (junk : List ℂ) : irfftWith junk [] = none := by
  simp [irfftWith]

end IrfftLemmas

/-- Function `linspace` from `src/utils.rs` (only the arithmetic; the `from_usize`
conversions always succeed at `f64`). -/
noncomputable def linspace (start stop : ℝ) (size : ℕ) (endpoint : Bool) : List ℝ :=
  let delta := if endpoint then (stop - start) / ((size - 1 : ℕ) : ℝ)
               else (stop - start) / ((size : ℕ) : ℝ)
  (List.range size).map fun (i : ℕ) => start + delta * i

/-- Rust's `iter().position(|&pos| pos >= q)`: index of the first element
satisfying the predicate. -/
noncomputable def positionGe (q : ℝ) : List ℝ → Option ℕ
  | [] => none
  | a :: l => if q ≤ a then some 0 else (positionGe q l).map (· + 1)

/-- The per-element body of `interp_into` from `src/vector/arithmetic.rs`:
find the first breakpoint with frequency `≥` the query (defaulting to
`xp.len()` when none), clamp to the first/last gain at the boundaries, and
otherwise linearly interpolate between the bracketing breakpoints. -/
noncomputable def interpPoint (xp fp : List ℝ) (q : ℝ) : ℝ :=
  let bin := (positionGe q xp).getD xp.length
  if bin = 0 then fp.getD 0 0
  else if bin = xp.length then fp.getD (fp.length - 1) 0
  else
    fp.getD (bin - 1) 0 +
      (fp.getD bin 0 - fp.getD (bin - 1) 0) / (xp.getD bin 0 - xp.getD (bin - 1) 0) *
        (q - xp.getD (bin - 1) 0)

/-- Function `interp` from `src/vector/arithmetic.rs`: elementwise interpolation of
each query point of `self` against the breakpoints `(xp, fp)`. -/
noncomputable def interp (x xp fp : List ℝ) : List ℝ :=
  x.map (interpPoint xp fp)

/-- Out-of-bounds guard for `interp_into`: for an interior bracket index
`bin` (neither `0` nor `xp.len`) the source reads `fp[bin]` and
`fp[bin - 1]` (`arithmetic.rs:434`), which panics when `fp` has at most
`bin` elements.  `interpOk x xp fp` states that no query in `x` hits that
panic (the `bin = 0` and `bin = xp.len` clamp reads are in bounds whenever
`fp` is non-empty, which `firwin2` checks separately). -/
noncomputable def interpOk (x xp fp : List ℝ) : Prop :=
  ∀ q ∈ x,
    (positionGe q xp).getD xp.length = 0 ∨
    (positionGe q xp).getD xp.length = xp.length ∨
    (positionGe q xp).getD xp.length < fp.length

/-- Constant `f64::EPSILON`. -/
noncomputable def f64Epsilon : ℝ := (2 ^ 52)⁻¹

/-- One iteration of the duplicate-frequency loop in `firwin2`: if slots `i`
and `i+1` hold equal frequencies, move them an epsilon apart. -/
noncomputable def perturbStep (eps : ℝ) (l : List ℝ) (i : ℕ) : List ℝ :=
  if l.getD i 0 = l.getD (i + 1) 0 then
    (l.set i (l.getD i 0 - eps)).set (i + 1) (l.getD (i + 1) 0 + eps)
  else l

/-- The duplicate-frequency loop of `firwin2`, applied to the local copy of
`freqs` (`for i in 0..(freqs.len() - 1)`). -/
noncomputable def perturbFreqs (eps : ℝ) (l : List ℝ) : List ℝ :=
  (List.range (l.length - 1)).foldl (perturbStep eps) l

/-- Function `cos_sum` from `src/windows/cosine_sum.rs`. -/
noncomputable def cos_sum (n : ℕ) (alpha : ℝ) : List ℝ :=
  (List.range n).map fun (i : ℕ) =>
    alpha - (1 - alpha) * Real.cos (2 * Real.pi * i / ((n - 1 : ℕ) : ℝ))

/-- Function `hamming` from `src/windows/cosine_sum.rs`. -/
noncomputable def hamming (n : ℕ) : List ℝ := cos_sum n (25 / 46)

/-- The boundary-gain assertions of `firwin2`, arranged exactly as the
source's `match (antisymmetric, numtaps % 2 == 0)`: Type I (odd, symmetric)
asserts nothing; Type II (even, symmetric) needs zero gain at Nyquist;
Type III (odd, antisymmetric) needs zero gain at both ends; Type IV (even,
antisymmetric) needs zero gain at zero frequency. -/
def assertOk (numtaps : ℕ) (gains : List ℝ) (antisymmetric : Bool) : Prop :=
  match antisymmetric, numtaps % 2 == 0 with
  | false, false => True
  | false, true => gains.getD (gains.length - 1) 0 = 0
  | true, false => gains.getD 0 0 = 0 ∧ gains.getD (gains.length - 1) 0 = 0
  | true, true => gains.getD 0 0 = 0

/-- Grid size chosen by `firwin2`: `1 + 2^ceil(log2 numtaps)`. -/
def nfreqsOf (numtaps : ℕ) : ℕ := 1 + 2 ^ Nat.clog 2 numtaps

/-- The dense half-spectrum `firwin2` feeds to `irfft`: the interpolated
gains on the uniform grid times the linear-phase shift term
`exp(i·((numtaps-1)/(-2))·π·x/nyq)`, the latter rotated by `i` for
antisymmetric designs. -/
noncomputable def firwin2HalfSpectrum (numtaps : ℕ) (freqs gains : List ℝ)
    (antisymmetric : Bool) : List ℂ :=
  let nyq : ℝ := 1
  let x := linspace 0 nyq (nfreqsOf numtaps) true
  let fx := interp x (perturbFreqs f64Epsilon freqs) gains
  let shift0 := x.map fun (xi : ℝ) =>
    Complex.exp (⟨0, ((numtaps : ℝ) - 1) / (-2) * Real.pi * xi / nyq⟩ : ℂ)
  let shift := if antisymmetric then shift0.map (· * (⟨0, 1⟩ : ℂ)) else shift0
  List.zipWith (· * ·) (fx.map fun (r : ℝ) => (⟨r, 0⟩ : ℂ)) shift

/-- The tail of `firwin2` after the inverse-real transform: truncate to
`numtaps` coefficients, multiply by the Hamming window, and for Type III
(antisymmetric, odd length) hard-set the center tap to zero. -/
noncomputable def firwin2Finish (numtaps : ℕ) (antisymmetric : Bool)
    (outFull : List ℝ) : List ℝ :=
  let out := List.zipWith (· * ·) (outFull.take numtaps) (hamming numtaps)
  if antisymmetric = true ∧ numtaps % 2 = 1 then out.set (out.length / 2) 0 else out

/-- Function `firwin2` from `src/utils.rs`.  Panics (empty `freqs` underflows the
duplicate loop bound, empty `gains` is indexed by every path that survives
the match, failed boundary asserts, an interior interpolation bracket index
past the end of `gains` — the `fp[bin]` read of `arithmetic.rs:434`, possible
when `gains` is shorter than the perturbed `freqs` — and a too-short
transform output for the `out_full[0..numtaps]` slice) are modelled as
`none`. -/
noncomputable def firwin2 (numtaps : ℕ) (freqs gains : List ℝ)
    (antisymmetric : Bool) : Option (List ℝ) :=
  if freqs.length = 0 then none
  else if gains.length = 0 then none
  else if ¬ assertOk numtaps gains antisymmetric then none
  else if ¬ interpOk (linspace 0 1 (nfreqsOf numtaps) true)
      (perturbFreqs f64Epsilon freqs) gains then none
  else
    match irfft (firwin2HalfSpectrum numtaps freqs gains antisymmetric) with
    | none => none
    | some outFull =>
      if numtaps ≤ outFull.length then
        some (firwin2Finish numtaps antisymmetric outFull)
      else none

/-- Caller-visible state after a `firwin2` call: the source takes `freqs`
and `gains` by immutable borrow and copies `freqs` (`freqs.to_vec()`) before
the epsilon perturbation, so the caller's buffers are returned unchanged
alongside the result. -/
noncomputable def firwin2Buffers (numtaps : ℕ) (freqs gains : List ℝ)
    (antisymmetric : Bool) : Option (List ℝ) × List ℝ × List ℝ :=
  (firwin2 numtaps freqs gains antisymmetric, freqs, gains)

section InterpLemmas

lemma positionGe_eq_none (q : ℝ) (xp : List ℝ) (h : ∀ a ∈ xp, a < q) :
    positionGe q xp = none := by
  induction xp with
  | nil => rfl
  | cons a l ih =>
    rw [positionGe, if_neg (not_le.mpr (h a (List.mem_cons_self a l)))]
    rw [ih fun b hb => h b (List.mem_cons_of_mem a hb)]
    rfl

lemma positionGe_eq_some (q : ℝ) (xp : List ℝ) (i : ℕ) (h1 : i < xp.length)
    (h2 : q ≤ xp.getD i 0) (h3 : ∀ j, j < i → xp.getD j 0 < q) :
    positionGe q xp = some i := by
  induction xp generalizing i with
  | nil => simp at h1
  | cons a l ih =>
    cases i with
    | zero =>
      rw [positionGe, if_pos (by simpa using h2)]
    | succ j =>
      have ha : a < q := by simpa using h3 0 (Nat.succ_pos j)
      rw [positionGe, if_neg (not_le.mpr ha)]
      rw [ih j (by simpa using h1) (by simpa using h2)
        (fun m hm => by simpa using h3 (m + 1) (by omega))]
      rfl

lemma interpPoint_below (xp fp : List ℝ) (q : ℝ) (hxp : xp ≠ [])
    (h : q < xp.getD 0 0) : interpPoint xp fp q = fp.getD 0 0 := by
  obtain ⟨a, l, rfl⟩ := List.exists_cons_of_ne_nil hxp
  have hpos : positionGe q (a :: l) = some 0 := by
    rw [positionGe, if_pos (le_of_lt (by simpa using h))]
  rw [interpPoint]
  simp only [hpos, Option.getD_some]
  simp

lemma interpPoint_above (xp fp : List ℝ) (q : ℝ) (hxp : xp ≠ [])
    (h : ∀ a ∈ xp, a < q) :
    interpPoint xp fp q = fp.getD (fp.length - 1) 0 := by
  have hpos : positionGe q xp = none := positionGe_eq_none q xp h
  have hlen : xp.length ≠ 0 := by simpa using hxp
  rw [interpPoint]
  simp only [hpos, Option.getD_none, if_neg hlen]
  simp

lemma interpPoint_bracket (xp fp : List ℝ) (q : ℝ) (i : ℕ) (h0 : 0 < i)
    (h1 : i < xp.length) (h2 : q ≤ xp.getD i 0) (h3 : ∀ j, j < i → xp.getD j 0 < q) :
    interpPoint xp fp q =
      fp.getD (i - 1) 0 +
        (fp.getD i 0 - fp.getD (i - 1) 0) / (xp.getD i 0 - xp.getD (i - 1) 0) *
          (q - xp.getD (i - 1) 0) := by
  have hpos : positionGe q xp = some i := positionGe_eq_some q xp i h1 h2 h3
  rw [interpPoint]
  simp only [hpos, Option.getD_some, if_neg h0.ne', if_neg (Nat.ne_of_lt h1)]

end InterpLemmas

section Firwin2Lemmas

lemma length_linspace (start stop : ℝ) (size : ℕ) (endpoint : Bool) :
    (linspace start stop size endpoint).length = size := by
  simp [linspace]

lemma length_interp (x xp fp : List ℝ) : (interp x xp fp).length = x.length := by
  simp [interp]

lemma length_cos_sum (n : ℕ) (alpha : ℝ) : (cos_sum n alpha).length = n := by
  simp [cos_sum]

lemma length_hamming (n : ℕ) : (hamming n).length = n := by
  simp [hamming, length_cos_sum]

lemma two_le_nfreqsOf (numtaps : ℕ) : 2 ≤ nfreqsOf numtaps := by
  have h : 0 < 2 ^ Nat.clog 2 numtaps := pow_pos (by norm_num) _
  rw [nfreqsOf]
  omega

lemma numtaps_le_outLen (numtaps : ℕ) : numtaps ≤ 2 * (nfreqsOf numtaps - 1) := by
  have h1 : numtaps ≤ 2 ^ Nat.clog 2 numtaps := Nat.le_pow_clog (by norm_num) numtaps
  have h2 : 0 < 2 ^ Nat.clog 2 numtaps := pow_pos (by norm_num) _
  rw [nfreqsOf]
  omega

lemma length_firwin2HalfSpectrum (numtaps : ℕ) (freqs gains : List ℝ)
    (antisymmetric : Bool) :
    (firwin2HalfSpectrum numtaps freqs gains antisymmetric).length = nfreqsOf numtaps := by
  rw [firwin2HalfSpectrum]
  cases antisymmetric <;>
    simp [length_interp, length_linspace]

lemma irfftRaw_length (junk half : List ℂ) (hM : 2 ≤ half.length)
    (hj : junk.length = half.length - 1) :
    (irfftRaw junk half).length = 2 * (half.length - 1) := by
  rw [irfftRaw_eq junk half hM hj]
  simp only [List.length_map, length_unnormalizedIdft, length_fullSpectrum]
  omega

lemma length_perturbStep (eps : ℝ) (l : List ℝ) (i : ℕ) :
    (perturbStep eps l i).length = l.length := by
  rw [perturbStep]
  split
  · simp
  · rfl

lemma length_foldl_perturbStep (eps : ℝ) (idxs : List ℕ) :
    ∀ acc : List ℝ, (idxs.foldl (perturbStep eps) acc).length = acc.length := by
  induction idxs with
  | nil => intro acc; rfl
  | cons i idxs ih =>
    intro acc
    rw [List.foldl_cons, ih, length_perturbStep]

lemma length_perturbFreqs (eps : ℝ) (l : List ℝ) :
    (perturbFreqs eps l).length = l.length := by
  rw [perturbFreqs]
  exact length_foldl_perturbStep eps _ l

lemma positionGe_lt_length (q : ℝ) (xp : List ℝ) (i : ℕ)
    (h : positionGe q xp = some i) : i < xp.length := by
  induction xp generalizing i with
  | nil => simp [positionGe] at h
  | cons a l ih =>
    rw [positionGe] at h
    by_cases hq : q ≤ a
    · rw [if_pos hq] at h
      obtain rfl := (Option.some_inj.mp h).symm
      simp
    · rw [if_neg hq] at h
      cases hpos : positionGe q l with
      | none => rw [hpos] at h; simp at h
      | some j =>
        rw [hpos] at h
        simp only [Option.map_some', Option.some_inj] at h
        have := ih j hpos
        simp only [List.length_cons]
        omega

/-- When the gains list is at least as long as the breakpoint list, no
interior bracket index can run past the end of the gains list. -/
lemma interpOk_of_le (x xp fp : List ℝ) (h : xp.length ≤ fp.length) :
    interpOk x xp fp := by
  intro q hq
  cases hpos : positionGe q xp with
  | none =>
    right; left
    rfl
  | some i =>
    right; right
    have := positionGe_lt_length q xp i hpos
    simpa using lt_of_lt_of_le this h

/-- The happy path of `firwin2`: with non-empty breakpoint buffers and the
boundary asserts satisfied, the call returns the finished taps built from the
inverse-real transform of the constructed half-spectrum. -/
lemma firwin2_eq_some (numtaps : ℕ) (freqs gains : List ℝ) (antisymmetric : Bool)
    (hf : freqs.length ≠ 0) (hg : gains.length ≠ 0)
    (hfg : freqs.length = gains.length)
    (hok : assertOk numtaps gains antisymmetric) :
    firwin2 numtaps freqs gains antisymmetric =
      some (firwin2Finish numtaps antisymmetric
        (irfftRaw (List.replicate (nfreqsOf numtaps - 1) 0)
          (firwin2HalfSpectrum numtaps freqs gains antisymmetric))) ∧
    (irfftRaw (List.replicate (nfreqsOf numtaps - 1) 0)
        (firwin2HalfSpectrum numtaps freqs gains antisymmetric)).length =
      2 * (nfreqsOf numtaps - 1) := by
  set half := firwin2HalfSpectrum numtaps freqs gains antisymmetric with hhalf
  have hlen : half.length = nfreqsOf numtaps :=
    length_firwin2HalfSpectrum numtaps freqs gains antisymmetric
  have h2 : 2 ≤ half.length := by rw [hlen]; exact two_le_nfreqsOf numtaps
  have hjunk : (List.replicate (nfreqsOf numtaps - 1) (0 : ℂ)).length = half.length - 1 := by
    rw [List.length_replicate, hlen]
  have hrawlen : (irfftRaw (List.replicate (nfreqsOf numtaps - 1) 0) half).length =
      2 * (nfreqsOf numtaps - 1) := by
    rw [irfftRaw_length _ _ h2 hjunk, hlen]
  refine ⟨?_, hrawlen⟩
  have hio : interpOk (linspace 0 1 (nfreqsOf numtaps) true)
      (perturbFreqs f64Epsilon freqs) gains :=
    interpOk_of_le _ _ _ (by rw [length_perturbFreqs]; exact le_of_eq hfg)
  rw [firwin2, if_neg hf, if_neg hg, if_neg (not_not_intro hok),
    if_neg (not_not_intro hio)]
  have hirfft : irfft half = some (irfftRaw (List.replicate (nfreqsOf numtaps - 1) 0) half) := by
    rw [irfft, hlen]
    exact irfftWith_eq _ _ (by omega)
  rw [hirfft]
  exact if_pos (by rw [hrawlen]; exact numtaps_le_outLen numtaps)

lemma length_firwin2Finish (numtaps : ℕ) (antisymmetric : Bool) (outFull : List ℝ)
    (hout : numtaps ≤ outFull.length) :
    (firwin2Finish numtaps antisymmetric outFull).length = numtaps := by
  have hzip : (List.zipWith (· * ·) (outFull.take numtaps) (hamming numtaps)).length =
      numtaps := by
    simp only [List.length_zipWith, List.length_take, length_hamming]
    omega
  rw [firwin2Finish]
  split
  · rw [List.length_set, hzip]
  · exact hzip

lemma firwin2Finish_center (numtaps : ℕ) (outFull : List ℝ) (hodd : numtaps % 2 = 1)
    (hout : numtaps ≤ outFull.length) :
    (firwin2Finish numtaps true outFull).getD (numtaps / 2) 0 = 0 := by
  have hzip : (List.zipWith (· * ·) (outFull.take numtaps) (hamming numtaps)).length =
      numtaps := by
    simp only [List.length_zipWith, List.length_take, length_hamming]
    omega
  rw [firwin2Finish, if_pos ⟨rfl, hodd⟩]
  have hidx : numtaps / 2 < numtaps := Nat.div_lt_self (by omega) (by norm_num)
  have h1 : (List.zipWith (· * ·) (outFull.take numtaps) (hamming numtaps)).set
      ((List.zipWith (· * ·) (outFull.take numtaps) (hamming numtaps)).length / 2) 0 =
      (List.zipWith (· * ·) (outFull.take numtaps) (hamming numtaps)).set (numtaps / 2) 0 := by
    rw [hzip]
  rw [h1]
  rw [List.getD_eq_getElem _ _ (by rw [List.length_set, hzip]; exact hidx)]
  exact List.getElem_set_self _

end Firwin2Lemmas

section AssertOkLemmas

lemma assertOk_odd_false (numtaps : ℕ) (gains : List ℝ) (hmod : numtaps % 2 = 1) :
    assertOk numtaps gains false := by
  have hb : (numtaps % 2 == 0) = false := by simp [hmod]
  simp [assertOk, hb]

lemma assertOk_even_false (numtaps : ℕ) (gains : List ℝ) (hmod : numtaps % 2 = 0) :
    assertOk numtaps gains false ↔ gains.getD (gains.length - 1) 0 = 0 := by
  have hb : (numtaps % 2 == 0) = true := by simp [hmod]
  simp [assertOk, hb]

lemma assertOk_odd_true (numtaps : ℕ) (gains : List ℝ) (hmod : numtaps % 2 = 1) :
    assertOk numtaps gains true ↔
      gains.getD 0 0 = 0 ∧ gains.getD (gains.length - 1) 0 = 0 := by
  have hb : (numtaps % 2 == 0) = false := by simp [hmod]
  simp [assertOk, hb]

lemma assertOk_even_true (numtaps : ℕ) (gains : List ℝ) (hmod : numtaps % 2 = 0) :
    assertOk numtaps gains true ↔ gains.getD 0 0 = 0 := by
  have hb : (numtaps % 2 == 0) = true := by simp [hmod]
  simp [assertOk, hb]

end AssertOkLemmas

lemma perturbFreqs_duplicate_demo :
    perturbFreqs f64Epsilon [0, 1 / 2, 1 / 2, 1] ≠ [0, 1 / 2, 1 / 2, 1] := by
  have hrange : List.range ([(0 : ℝ), 1 / 2, 1 / 2, 1].length - 1) = [0, 1, 2] := rfl
  rw [perturbFreqs, hrange]
  simp only [List.foldl_cons, List.foldl_nil]
  rw [show perturbStep f64Epsilon [(0 : ℝ), 1 / 2, 1 / 2, 1] 0 = [0, 1 / 2, 1 / 2, 1] from
    if_neg (by norm_num)]
  rw [show perturbStep f64Epsilon [(0 : ℝ), 1 / 2, 1 / 2, 1] 1 =
      [0, 1 / 2 - f64Epsilon, 1 / 2 + f64Epsilon, 1] from by
    rw [perturbStep, if_pos (by norm_num)]
    norm_num]
  rw [show perturbStep f64Epsilon [(0 : ℝ), 1 / 2 - f64Epsilon, 1 / 2 + f64Epsilon, 1] 2 =
      [0, 1 / 2 - f64Epsilon, 1 / 2 + f64Epsilon, 1] from
    if_neg (by norm_num [f64Epsilon])]
  intro h
  have h1 := congrArg (fun l : List ℝ => l.getD 1 0) h
  norm_num [f64Epsilon] at h1

section Claims

/-- C1 counterexample: at the concrete input `x = [1, 0]` (length `N = 2`),
`forward_transform (inverse_transform x)` is not `x / N²` (it is `x / 2`,
not `x / 4`). -/
theorem C1_counterexample :
    (ifft [1, 0]).bind fft ≠ some ([(1 : ℂ), 0].map (· / ((2 : ℂ) ^ 2))) := by
  rw [fft_ifft_eq]
  intro h
  rw [Option.some_inj] at h
  have h0 := congrArg (fun l : List ℂ => l.getD 0 0) h
  simp at h0
  norm_num at h0

/-- C1 (amended): for every complex buffer `x` of length `N`, applying
`inverse_transform` and then `forward_transform` yields `x / N`, not
`x / N²`: each direction scales by `1/N`, but the unnormalized
transform pair itself contributes a factor of `N`. -/
theorem C1_roundtrip_scales_by_inv_length (x : List ℂ) :
    (ifft x).bind fft = some (x.map (· / (x.length : ℂ))) :=
  fft_ifft_eq x

/-- C2: for every half-spectrum of length `M ≥ 2` (and any uninitialized
working-buffer tail `junk` of length `M - 1`), `irfft` returns the real
parts of the `1/(2(M-1))`-scaled inverse transform of the full spectrum
`S[k] = half[k]` for `k < M`, `S[k] = conj(half[2M-2-k])` for
`M ≤ k < 2M-2`; the result has length `2(M-1)`, is independent of the
uninitialized tail, and the working buffer holds the original `half` in
slots `[0, M)` with conjugate-mirrored values exactly past them. -/
theorem C2_irfft_spec (half junk : List ℂ) (hM : 2 ≤ half.length)
    (hj : junk.length = half.length - 1) :
    irfft half =
        some (((unnormalizedIdft (fullSpectrum half)).map
          (· / ((2 * (half.length - 1) : ℕ) : ℂ))).map Complex.re) ∧
      irfftWith junk half = irfft half ∧
      (((unnormalizedIdft (fullSpectrum half)).map
          (· / ((2 * (half.length - 1) : ℕ) : ℂ))).map Complex.re).length =
        2 * (half.length - 1) ∧
      (workBuf junk half).take half.length = half ∧
      ∀ i, half.length ≤ i → i < 2 * half.length - 1 →
        (workBuf junk half).getD i 0 =
          (starRingEnd ℂ) (half.getD (2 * half.length - 2 - i) 0) := by
  have hne : half.length ≠ 0 := by omega
  have hjrep : (List.replicate (half.length - 1) (0 : ℂ)).length = half.length - 1 := by
    simp
  have hcast : ∀ l : List ℂ,
      l.map (· / (((2 * (half.length - 1) : ℕ) : ℝ) : ℂ)) =
        l.map (· / ((2 * (half.length - 1) : ℕ) : ℂ)) := by
    intro l
    simp
  have hirfft : irfft half =
      some (((unnormalizedIdft (fullSpectrum half)).map
        (· / ((2 * (half.length - 1) : ℕ) : ℂ))).map Complex.re) := by
    rw [irfft, irfftWith_eq _ _ hne, irfftRaw_eq _ _ hM hjrep, hcast]
  refine ⟨hirfft, ?_, ?_, workBuf_take junk half, ?_⟩
  · rw [irfftWith_eq _ _ hne, irfftRaw_eq _ _ hM hj, hcast, hirfft]
  · simp only [List.length_map, length_unnormalizedIdft, length_fullSpectrum]
    omega
  · intro i hi1 hi2
    have hw : i < (workBuf junk half).length := by
      rw [length_workBuf junk half hj (by omega)]
      omega
    rw [List.getD_eq_getElem _ _ hw,
      workBuf_getElem_ge junk half hj (by omega) i hi1 hi2 hw (by omega)]
    congr 1
    exact (List.getD_eq_getElem half 0 (by omega)).symm

/-- C2 witness: at the concrete half-spectrum `[1, 0]` (`M = 2`) with
uninitialized tail `[0]`, the working buffer keeps the original half values
in its first two slots. -/
theorem C2_irfft_spec_witness : (workBuf [0] [1, 0]).take 2 = [(1 : ℂ), 0] :=
  (C2_irfft_spec [1, 0] [0] (by simp) rfl).2.2.2.1

/-- C3: `forward_transform` returns the engine's unnormalized DFT with every
output element divided by `N`: multiplying the (successful) result
elementwise by `N` reproduces the unnormalized DFT, for every input length
including the empty buffer. -/
theorem C3_fft_is_scaled_dft (x : List ℂ) :
    (fft x).map (fun l => l.map (· * (x.length : ℂ))) = some (unnormalizedDft x) := by
  by_cases hx : x = []
  · subst hx
    simp [fft_nil, unnormalizedDft_nil]
  · have hN : (x.length : ℂ) ≠ 0 :=
      Nat.cast_ne_zero.mpr (by simpa using hx)
    rw [fft_eq x hx]
    simp only [Option.map_some', Option.some_inj, List.map_map]
    conv_rhs => rw [← List.map_id (unnormalizedDft x)]
    apply List.map_congr_left
    intro a _
    simp only [Function.comp_apply, id_eq]
    exact div_mul_cancel₀ a hN

/-- C4: the boundary-gain preconditions are checked by filter type and a
violation makes the call fail (`none`) before any transform work: Type II
(symmetric, even) requires zero last gain; Type III (antisymmetric, odd)
requires zero first and last gains; Type IV (antisymmetric, even) requires
zero first gain; Type I (symmetric, odd) has no boundary-gain requirement
and, on an equal-length breakpoint specification, succeeds. -/
theorem C4_firwin2_assertions (numtaps : ℕ) (freqs gains : List ℝ)
    (hf : freqs ≠ []) (hg : gains ≠ []) :
    (numtaps % 2 = 0 → gains.getD (gains.length - 1) 0 ≠ 0 →
        firwin2 numtaps freqs gains false = none) ∧
      (numtaps % 2 = 1 →
        (gains.getD 0 0 ≠ 0 ∨ gains.getD (gains.length - 1) 0 ≠ 0) →
        firwin2 numtaps freqs gains true = none) ∧
      (numtaps % 2 = 0 → gains.getD 0 0 ≠ 0 →
        firwin2 numtaps freqs gains true = none) ∧
      (numtaps % 2 = 1 → freqs.length = gains.length →
        (firwin2 numtaps freqs gains false).isSome = true) := by
  have hf' : freqs.length ≠ 0 := by simpa using hf
  have hg' : gains.length ≠ 0 := by simpa using hg
  refine ⟨?_, ?_, ?_, ?_⟩
  · intro hmod hviol
    rw [firwin2, if_neg hf', if_neg hg',
      if_pos (fun hok => hviol ((assertOk_even_false numtaps gains hmod).mp hok))]
  · intro hmod hviol
    have hnot : ¬ assertOk numtaps gains true := by
      intro hok
      obtain ⟨h0, h1⟩ := (assertOk_odd_true numtaps gains hmod).mp hok
      cases hviol with
      | inl h => exact h h0
      | inr h => exact h h1
    rw [firwin2, if_neg hf', if_neg hg', if_pos hnot]
  · intro hmod hviol
    rw [firwin2, if_neg hf', if_neg hg',
      if_pos (fun hok => hviol ((assertOk_even_true numtaps gains hmod).mp hok))]
  · intro hmod hlen
    rw [(firwin2_eq_some numtaps freqs gains false hf' hg' hlen
      (assertOk_odd_false numtaps gains hmod)).1]
    rfl

/-- C4 witness: a Type III call (`antisymmetric`, odd `numtaps = 3`) with a
nonzero boundary gain fails. -/
theorem C4_firwin2_assertions_witness : firwin2 3 [0, 1] [1, 0] true = none :=
  (C4_firwin2_assertions 3 [0, 1] [1, 0] (by simp) (by simp)).2.1 (by decide)
    (Or.inl (by norm_num))

/-- C5: for every odd `numtaps` with `antisymmetric = true`, a well-formed
specification (equal-length non-empty `freqs` and `gains`) and the Type III
boundary gains satisfied, `firwin2` succeeds and the center tap (index
`numtaps / 2`) of the returned buffer is exactly zero. -/
theorem C5_type3_center_tap (numtaps : ℕ) (freqs gains : List ℝ)
    (hodd : numtaps % 2 = 1) (hf : freqs ≠ []) (hg : gains ≠ [])
    (hlen : freqs.length = gains.length)
    (h0 : gains.getD 0 0 = 0) (h1 : gains.getD (gains.length - 1) 0 = 0) :
    ∃ out, firwin2 numtaps freqs gains true = some out ∧
      out.getD (numtaps / 2) 0 = 0 := by
  have hf' : freqs.length ≠ 0 := by simpa using hf
  have hg' : gains.length ≠ 0 := by simpa using hg
  have hok : assertOk numtaps gains true :=
    (assertOk_odd_true numtaps gains hodd).mpr ⟨h0, h1⟩
  obtain ⟨heq, hlenraw⟩ :=
    firwin2_eq_some numtaps freqs gains true hf' hg' hlen hok
  refine ⟨_, heq, ?_⟩
  apply firwin2Finish_center _ _ hodd
  rw [hlenraw]
  exact numtaps_le_outLen numtaps

/-- C5 witness: `numtaps = 3`, `freqs = [0, 1]`, `gains = [0, 0]`,
antisymmetric: the call succeeds with a zero center tap. -/
theorem C5_type3_center_tap_witness :
    ∃ out, firwin2 3 [0, 1] [0, 0] true = some out ∧ out.getD 1 0 = 0 :=
  C5_type3_center_tap 3 [0, 1] [0, 0] (by decide) (by simp) (by simp) rfl rfl rfl

/-- C6: for every `numtaps ≥ 1` and valid specification (non-empty
breakpoint buffers of equal length with the type's boundary asserts
satisfied), `firwin2` returns a buffer of length exactly `numtaps`; in
particular the intermediate inverse-real-transform output of length
`2*(nfreqs - 1)` is at least `numtaps` long, so the truncation is
well-defined. -/
theorem C6_firwin2_length (numtaps : ℕ) (freqs gains : List ℝ)
    (antisymmetric : Bool) (_hnt : 1 ≤ numtaps) (hf : freqs ≠ []) (hg : gains ≠ [])
    (hlen : freqs.length = gains.length)
    (hok : assertOk numtaps gains antisymmetric) :
    ∃ out, firwin2 numtaps freqs gains antisymmetric = some out ∧
      out.length = numtaps ∧ numtaps ≤ 2 * (nfreqsOf numtaps - 1) := by
  have hf' : freqs.length ≠ 0 := by simpa using hf
  have hg' : gains.length ≠ 0 := by simpa using hg
  obtain ⟨heq, hlenraw⟩ :=
    firwin2_eq_some numtaps freqs gains antisymmetric hf' hg' hlen hok
  refine ⟨_, heq, ?_, numtaps_le_outLen numtaps⟩
  apply length_firwin2Finish
  rw [hlenraw]
  exact numtaps_le_outLen numtaps

/-- C6 witness: `numtaps = 1`, a symmetric (Type I) specification on
`freqs = [0, 1]`, `gains = [1, 1]`: the call returns a length-1 buffer. -/
theorem C6_firwin2_length_witness :
    ∃ out, firwin2 1 [0, 1] [1, 1] false = some out ∧
      out.length = 1 ∧ 1 ≤ 2 * (nfreqsOf 1 - 1) :=
  C6_firwin2_length 1 [0, 1] [1, 1] false (by decide) (by simp) (by simp) rfl
    (assertOk_odd_false 1 [1, 1] (by decide))

/-- C7: the piecewise-linear interpolation used by `firwin2`: a query below
the first breakpoint yields the first gain, a query above every breakpoint
yields the last gain, and a query whose first breakpoint with frequency `≥`
the query is an interior index `i` yields the linear interpolation between
breakpoints `i-1` and `i`. -/
theorem C7_interp_boundaries (xp fp : List ℝ) (q : ℝ) (hxp : xp ≠ []) :
    (q < xp.getD 0 0 → interpPoint xp fp q = fp.getD 0 0) ∧
      ((∀ a ∈ xp, a < q) → interpPoint xp fp q = fp.getD (fp.length - 1) 0) ∧
      (∀ i, 0 < i → i < xp.length → q ≤ xp.getD i 0 →
        (∀ j, j < i → xp.getD j 0 < q) →
        interpPoint xp fp q =
          fp.getD (i - 1) 0 +
            (fp.getD i 0 - fp.getD (i - 1) 0) /
                (xp.getD i 0 - xp.getD (i - 1) 0) *
              (q - xp.getD (i - 1) 0)) := by
  exact ⟨interpPoint_below xp fp q hxp, interpPoint_above xp fp q hxp,
    fun i h0 h1 h2 h3 => interpPoint_bracket xp fp q i h0 h1 h2 h3⟩

/-- C7 witness: with breakpoints `xp = [1, 2]`, gains `fp = [5, 7]`, the
query `0` below the first breakpoint returns the first gain. -/
theorem C7_interp_boundaries_witness :
    interpPoint [1, 2] [5, 7] 0 = [(5 : ℝ), 7].getD 0 0 :=
  (C7_interp_boundaries [1, 2] [5, 7] 0 (by simp)).1 (by norm_num)

/-- C8 (amended): `forward_transform` on a length-0 buffer does not fail:
every operation on that path is total (the `usize` to `f64` conversion
succeeds and the elementwise divide touches no element), so the call
returns the empty buffer. -/
theorem C8_fft_empty_returns_empty : fft [] = some [] :=
  fft_nil

/-- C8 counterexample: the claimed failure at `N = 0` does not occur. -/
theorem C8_counterexample : fft [] ≠ none := by
  rw [fft_nil]
  simp

/-- C9 (amended): `irfft` fails for `M = 0` (the `2 * (len - 1)` output
length underflows, for any uninitialized-tail contents), but for `M = 1` it
does not fail: it returns the empty buffer. -/
theorem C9_irfft_short_inputs :
    (∀ junk : List ℂ, irfftWith junk [] = none) ∧ irfft [] = none ∧
      irfft [1] = some [] := by
  refine ⟨irfftWith_nil, irfftWith_nil _, ?_⟩
  have hraw : irfftRaw [] [(1 : ℂ)] = [] := by
    rw [irfftRaw]
    norm_num [resizeTo, processChunks_nil]
  rw [show irfft [(1 : ℂ)] = irfftWith [] [1] from rfl, irfftWith_eq _ _ (by simp), hraw]

/-- C9 counterexample: at `M = 1` the call does not fail (it returns the
empty buffer), refuting the claim that every `M < 2` fails. -/
theorem C9_counterexample : irfft [1] ≠ none := by
  have hraw : irfftRaw [] [(1 : ℂ)] = [] := by
    rw [irfftRaw]
    norm_num [resizeTo, processChunks_nil]
  rw [show irfft [(1 : ℂ)] = irfftWith [] [1] from rfl, irfftWith_eq _ _ (by simp), hraw]
  simp

/-- C10: `firwin2` never modifies its caller-supplied `freqs` and `gains`
buffers: the source copies `freqs` and perturbs only the copy, so after any
call the caller's buffers hold their original values, even on inputs with
duplicate adjacent frequencies where the internal perturbation really does
change the copy. -/
theorem C10_firwin2_frame (numtaps : ℕ) (freqs gains : List ℝ)
    (antisymmetric : Bool) :
    (firwin2Buffers numtaps freqs gains antisymmetric).2.1 = freqs ∧
      (firwin2Buffers numtaps freqs gains antisymmetric).2.2 = gains ∧
      perturbFreqs f64Epsilon [0, 1 / 2, 1 / 2, 1] ≠ [0, 1 / 2, 1 / 2, 1] :=
  ⟨rfl, rfl, perturbFreqs_duplicate_demo⟩

end Claims

end Yttria
